import Mathlib

set_option maxHeartbeats 1000000

/-!
Shallow embedding of the mark-and-sweep garbage collector in `src/main.rs`.

The Rust program stores objects in `Rc<RefCell<Object>>` cells that are
shared between the root stack, the `head`/`tail` edges of pairs, and the
intrusive `first_object`/`next` registry list.  Following the arena style,
the embedding keeps every allocated cell in a list `heap : List Object`
(the cell allocated n-th lives at index n, and the list only ever grows,
exactly as the Rust program never deallocates a cell that is still linked
from the registry) and renders every `Rc<RefCell<Object>>` reference as
the index of the cell it points to.  Fallible operations (`push`, `pop`,
`set_pair_tail`, and the allocators built on them) return `Except`, with
one error per `panic!` site of the source.  The recursive `mark` and the
`sweep` loop are written with an explicit fuel argument; the development
proves that any fuel larger than the object count gives the same result,
which is exactly the termination argument of the source.
-/

/-- Payload of an object: `ObjectType::Int(usize)` or
`ObjectType::Pair(Pair { head, tail })`, with the two `Rc` references of a
pair rendered as arena indices (head first, tail second). -/
inductive ObjectType where
  | int : Nat → ObjectType
  | pair : Nat → Nat → ObjectType
deriving DecidableEq

/-- One heap cell, mirroring `struct Object`: payload, mark bit, and the
intrusive registry link `next` (index of the previously allocated object). -/
structure Object where
  obj_type : ObjectType
  marked : Bool
  next : Option Nat
deriving DecidableEq

/-- The three `panic!` sites of the source, rendered as error values. -/
inductive VMErr where
  | stackOverflow : VMErr
  | stackUnderflow : VMErr
  | typeMismatch : VMErr
deriving DecidableEq

/-- The virtual machine state, mirroring `struct VM` plus the explicit
arena `heap` that stands for the `Rc` cells.  The root stack holds arena
indices, most recently pushed first. -/
structure VM where
  stack : List Nat
  max_size : Nat
  first_object : Option Nat
  max_objects : Nat
  num_objects : Nat
  heap : List Object

/-- Arena lookup: the cell at index `i`, if allocated. -/
def getO : List Object → Nat → Option Object
  | [], _ => none
  | o :: _, 0 => some o
  | _ :: t, n + 1 => getO t n

/-- Replace the cell at index `i` by `f` applied to it (no-op when `i` is
out of range; the source can never address a missing cell). -/
def updateAt : List Object → Nat → (Object → Object) → List Object
  | [], _, _ => []
  | o :: t, 0, f => f o :: t
  | o :: t, n + 1, f => o :: updateAt t n f

/-- Write the mark bit of the cell at index `i`. -/
def setMark (h : List Object) (i : Nat) (b : Bool) : List Object :=
  updateAt h i (fun o => { o with marked := b })

/-- The mark bit of the cell at `j` (`false` for an unallocated index). -/
def isMarked (h : List Object) (j : Nat) : Bool :=
  ((getO h j).map Object.marked).getD false

/-- The payload of the cell at `j`. -/
def objType (h : List Object) (j : Nat) : Option ObjectType :=
  (getO h j).map Object.obj_type

/-- The registry link of the cell at `j`. -/
def nextOf (h : List Object) (j : Nat) : Option (Option Nat) :=
  (getO h j).map Object.next

/-- Number of unmarked cells in the heap; the measure that bounds the
`mark` recursion of the source. -/
def unmarkedCount : List Object → Nat
  | [] => 0
  | o :: t => (if o.marked then 0 else 1) + unmarkedCount t

/-- `VM::mark`, with explicit fuel: if the object is already marked,
return immediately; otherwise set the mark bit and, for a pair, recurse
into `head` then `tail` (the order of `mark(pair.head)` before
`mark(pair.tail)` in the source). -/
def VM.mark : Nat → List Object → Nat → List Object
  | 0, h, _ => h
  | fuel + 1, h, i =>
    match getO h i with
    | none => h
    | some o =>
      if o.marked then h
      else
        match o.obj_type with
        | ObjectType.int _ => setMark h i true
        | ObjectType.pair hd tl =>
            VM.mark fuel (VM.mark fuel (setMark h i true) hd) tl

/-- Mark every root in the given order (the stack is stored most recently
pushed first, and `stack.iter_mut()` in the source walks it oldest
first, hence the fold over the reversed stack). -/
def foldMark (h : List Object) (roots : List Nat) : List Object :=
  roots.foldl (fun acc r => VM.mark (acc.length + 1) acc r) h

/-- `VM::mark_all`: mark from every reference on the root stack. -/
def VM.mark_all (vm : VM) : VM :=
  { vm with heap := foldMark vm.heap vm.stack.reverse }

/-- The sweep loop of `VM::sweep`, with explicit fuel.  For an unmarked
object the source merely advances to the successor, decrements the live
count and drops a clone of the `Rc` (which frees nothing, since the
registry chain still holds the cell); for a marked object it clears the
mark bit and advances.  Returns the heap and the live count. -/
def sweepLoop : Nat → List Object → Option Nat → Nat → List Object × Nat
  | 0, h, _, n => (h, n)
  | _ + 1, h, none, n => (h, n)
  | fuel + 1, h, some i, n =>
    match getO h i with
    | none => (h, n)
    | some o =>
      if !o.marked then sweepLoop fuel h o.next (n - 1)
      else sweepLoop fuel (setMark h i false) o.next n

/-- `VM::sweep`: walk the registry from `first_object` once. -/
def VM.sweep (vm : VM) : VM :=
  let r := sweepLoop (vm.heap.length + 1) vm.heap vm.first_object vm.num_objects
  { vm with heap := r.1, num_objects := r.2 }

/-- `VM::gc`: mark phase, sweep phase, then reset the threshold to
`num_objects * 2` (the diagnostic print is not modelled). -/
def VM.gc (vm : VM) : VM :=
  let v1 := VM.mark_all vm
  let v2 := VM.sweep v1
  { v2 with max_objects := v2.num_objects * 2 }

/-- The allocation-gate condition of `VM::new_object`:
`self.num_objects >= self.max_objects`. -/
def needsGC (vm : VM) : Bool :=
  decide (vm.max_objects ≤ vm.num_objects)

/-- `VM::push`: fails with `StackOverflow` when the stack is at capacity. -/
def VM.push (vm : VM) (i : Nat) : Except VMErr VM :=
  if vm.max_size ≤ vm.stack.length then Except.error VMErr.stackOverflow
  else Except.ok { vm with stack := i :: vm.stack }

/-- `VM::pop`: fails with `StackUnderflow` when the stack is empty. -/
def VM.pop (vm : VM) : Except VMErr (VM × Nat) :=
  match vm.stack with
  | [] => Except.error VMErr.stackUnderflow
  | i :: rest => Except.ok ({ vm with stack := rest }, i)

/-- `VM::new_object`: run a collection first if the count has reached the
threshold, then allocate a fresh unmarked cell whose `next` is the current
`first_object`, push its reference, bump the count and make it the new
`first_object`.  Returns the new state and the reference. -/
def VM.new_object (vm : VM) (t : ObjectType) : Except VMErr (VM × Nat) :=
  let vm1 := if needsGC vm then VM.gc vm else vm
  let id := vm1.heap.length
  let vm2 := { vm1 with
    heap := vm1.heap ++ [{ obj_type := t, marked := false, next := vm1.first_object }] }
  match VM.push vm2 id with
  | Except.error e => Except.error e
  | Except.ok vm3 =>
      Except.ok ({ vm3 with num_objects := vm3.num_objects + 1, first_object := some id }, id)

/-- `VM::push_int`. -/
def VM.push_int (vm : VM) (value : Nat) : Except VMErr (VM × Nat) :=
  VM.new_object vm (ObjectType.int value)

/-- `VM::push_pair`: the first pop is the tail operand, the second pop the
head operand; only the new pair's reference is pushed. -/
def VM.push_pair (vm : VM) : Except VMErr (VM × Nat) :=
  match VM.pop vm with
  | Except.error e => Except.error e
  | Except.ok (vm1, tl) =>
    match VM.pop vm1 with
    | Except.error e => Except.error e
    | Except.ok (vm2, hd) => VM.new_object vm2 (ObjectType.pair hd tl)

/-- `VM::set_pair_tail`: replace the tail edge of a pair, failing with
`TypeMismatch` for any other object (the source panics with
"should be a pair"). -/
def VM.set_pair_tail (vm : VM) (i new_tail : Nat) : Except VMErr VM :=
  match getO vm.heap i with
  | some o =>
    match o.obj_type with
    | ObjectType.pair hd _ =>
        Except.ok { vm with
          heap := updateAt vm.heap i (fun o2 => { o2 with obj_type := ObjectType.pair hd new_tail }) }
    | _ => Except.error VMErr.typeMismatch
  | none => Except.error VMErr.typeMismatch

/-- `VM::new`: empty stack of the given capacity, empty registry, and the
initial threshold constant 8. -/
def VM.new (max_size : Nat) : VM :=
  { stack := [], max_size := max_size, first_object := none,
    max_objects := 8, num_objects := 0, heap := [] }

/-- The registry enumeration: the indices on the `first_object`/`next`
chain, in chain order. -/
def chainIds : Nat → List Object → Option Nat → List Nat
  | 0, _, _ => []
  | _ + 1, _, none => []
  | fuel + 1, h, some i =>
    match getO h i with
    | none => [i]
    | some o => i :: chainIds fuel h o.next

/-- The registry contents of a VM state. -/
def registryIds (vm : VM) : List Nat :=
  chainIds (vm.heap.length + 1) vm.heap vm.first_object

/-- `Reaches h i j`: the object at `j` is reachable from the reference `i`
by following `head`/`tail` edges (any path, cycles included).  Only the
payloads of the heap matter, never the mark bits or registry links. -/
inductive Reaches (h : List Object) : Nat → Nat → Prop where
  | refl (i : Nat) : Reaches h i i
  | head (i hd tl j : Nat) : objType h i = some (ObjectType.pair hd tl) →
      Reaches h hd j → Reaches h i j
  | tail (i hd tl j : Nat) : objType h i = some (ObjectType.pair hd tl) →
      Reaches h tl j → Reaches h i j

/-- Well-formed payloads: every pair edge addresses an allocated cell.
In the source this is automatic, since edges are `Rc` references. -/
def HeapClosed (h : List Object) : Prop :=
  ∀ i a b, objType h i = some (ObjectType.pair a b) → a < h.length ∧ b < h.length

/-- Closure of a mark assignment under the edges of the heap. -/
def MarksClosed (h : List Object) : Prop :=
  ∀ j a b, isMarked h j = true → objType h j = some (ObjectType.pair a b) →
    isMarked h a = true ∧ isMarked h b = true

/-- Boolean check that all pair edges of the heap address indices below `n`. -/
def pairsBelow : List Object → Nat → Bool
  | [], _ => true
  | o :: t, n =>
    (match o.obj_type with
     | ObjectType.int _ => true
     | ObjectType.pair a b => decide (a < n) && decide (b < n)) && pairsBelow t n

/-- Boolean form of `HeapClosed`. -/
def heapClosed (h : List Object) : Bool := pairsBelow h h.length

/-- Boolean check that every listed index is below `n` (used for the root
stack, whose entries are always references to allocated cells). -/
def idsBelow : List Nat → Nat → Bool
  | [], _ => true
  | i :: t, n => decide (i < n) && idsBelow t n

/-- Boolean check that no object of the heap is marked. -/
def allUnmarked : List Object → Bool
  | [] => true
  | o :: t => !o.marked && allUnmarked t

/-- The shape a registry chain has in every reachable state of this
program: the cell at index `i` links to the cell at `i - 1` (and cell 0
links to nothing), because every allocation sets `next` to the previous
`first_object` and `sweep` never rewrites a link. -/
def ChainOK (h : List Object) : Prop :=
  ∀ i, i < h.length → nextOf h i = some (if i = 0 then none else some (i - 1))

/-- Boolean form of `ChainOK`; the second argument is the index of the
object at the front of the remaining list. -/
def chainOKAux : List Object → Nat → Bool
  | [], _ => true
  | o :: t, k => (o.next == if k == 0 then none else some (k - 1)) && chainOKAux t (k + 1)

/-- Boolean check of the registry-chain shape. -/
def chainOK (h : List Object) : Bool := chainOKAux h 0

/-- Boolean check that `first_object` points at the most recently
allocated cell (or is `none` for an empty heap), as in every reachable
state of the program. -/
def firstOK (vm : VM) : Bool :=
  vm.first_object == (if vm.heap.length == 0 then none else some (vm.heap.length - 1))

/-- Combined registry well-formedness of a VM state. -/
def regWF (vm : VM) : Bool := firstOK vm && chainOK vm.heap

/-- Whether the cell at `i` is a Pair variant. -/
def isPairAt (h : List Object) (i : Nat) : Bool :=
  match objType h i with
  | some (ObjectType.pair _ _) => true
  | _ => false

/-- Scenario: `new(10); push_int(1); pop(); gc()` — one object allocated,
removed from the root set, then collected. -/
def step1 : Except VMErr VM :=
  match VM.push_int (VM.new 10) 1 with
  | Except.error e => Except.error e
  | Except.ok (v, _) =>
    match VM.pop v with
    | Except.error e => Except.error e
    | Except.ok (v1, _) => Except.ok (VM.gc v1)

/-- Scenario: `new(10); push_int(1); push_int(2); pop(); gc()` — after the
collection one live object (index 0) remains on the root set and the
popped object (index 1) has been counted out. -/
def step23 : Except VMErr VM :=
  match VM.push_int (VM.new 10) 1 with
  | Except.error e => Except.error e
  | Except.ok (v, _) =>
    match VM.push_int v 2 with
    | Except.error e => Except.error e
    | Except.ok (v1, _) =>
      match VM.pop v1 with
      | Except.error e => Except.error e
      | Except.ok (v2, _) => Except.ok (VM.gc v2)

/-- A concrete well-formed state with a cyclic pair: object 1 is a pair
whose head is object 0 and whose tail is object 1 itself; object 2 is
allocated but unreachable; the root set holds only object 1. -/
def vmA : VM :=
  { stack := [1], max_size := 10, first_object := some 2, max_objects := 8,
    num_objects := 3,
    heap := [{ obj_type := ObjectType.int 1, marked := false, next := none },
             { obj_type := ObjectType.pair 0 1, marked := false, next := some 0 },
             { obj_type := ObjectType.int 5, marked := false, next := some 1 }] }

/-- A concrete state with two int objects on the root stack, the stack at
its capacity of 2. -/
def vmC : VM :=
  { stack := [1, 0], max_size := 2, first_object := some 1, max_objects := 8,
    num_objects := 2,
    heap := [{ obj_type := ObjectType.int 1, marked := false, next := none },
             { obj_type := ObjectType.int 2, marked := false, next := some 0 }] }

/-- A concrete state holding one pair object (a self-loop) and one int. -/
def vmD : VM :=
  { stack := [0], max_size := 4, first_object := some 1, max_objects := 8,
    num_objects := 2,
    heap := [{ obj_type := ObjectType.pair 1 1, marked := false, next := none },
             { obj_type := ObjectType.int 7, marked := false, next := some 0 }] }

/-! ### Basic lemmas about the arena primitives -/

theorem getO_updateAt (h : List Object) (i : Nat) (f : Object → Object) (j : Nat) :
    getO (updateAt h i f) j = if j = i then (getO h i).map f else getO h j := by
  induction h generalizing i j with
  | nil => simp [updateAt, getO]
  | cons o t ih =>
    cases i with
    | zero =>
      cases j with
      | zero => simp [updateAt, getO]
      | succ k => simp [updateAt, getO]
    | succ m =>
      cases j with
      | zero => simp [updateAt, getO]
      | succ k =>
        simp only [updateAt, getO]
        rw [ih m k]
        by_cases hk : k = m
        · simp [hk]
        · simp [hk]

theorem length_updateAt (h : List Object) (i : Nat) (f : Object → Object) :
    (updateAt h i f).length = h.length := by
  induction h generalizing i with
  | nil => rfl
  | cons o t ih =>
    cases i with
    | zero => rfl
    | succ m => simp [updateAt, ih]

theorem getO_none_iff (h : List Object) (j : Nat) :
    getO h j = none ↔ h.length ≤ j := by
  induction h generalizing j with
  | nil => simp [getO]
  | cons o t ih =>
    cases j with
    | zero => simp [getO]
    | succ k => simp [getO, ih, Nat.succ_le_succ_iff]

theorem getO_lt_length {h : List Object} {j : Nat} {o : Object}
    (hg : getO h j = some o) : j < h.length := by
  by_contra hc
  rw [getO_none_iff h j |>.mpr (Nat.le_of_not_lt hc)] at hg
  exact Option.noConfusion hg

theorem getO_isSome_of_lt {h : List Object} {j : Nat} (hj : j < h.length) :
    ∃ o, getO h j = some o := by
  cases hg : getO h j with
  | some o => exact ⟨o, rfl⟩
  | none => exact absurd (getO_none_iff h j |>.mp hg) (Nat.not_le_of_lt hj)

theorem getO_append_lt (h : List Object) (o : Object) {j : Nat} (hj : j < h.length) :
    getO (h ++ [o]) j = getO h j := by
  induction h generalizing j with
  | nil => exact absurd hj (by simp)
  | cons a t ih =>
    cases j with
    | zero => rfl
    | succ k => exact ih (Nat.lt_of_succ_lt_succ hj)

theorem getO_append_length (h : List Object) (o : Object) :
    getO (h ++ [o]) h.length = some o := by
  induction h with
  | nil => rfl
  | cons a t ih => simpa [getO] using ih

/-! ### Mark bits under `setMark` -/

theorem length_setMark (h : List Object) (i : Nat) (b : Bool) :
    (setMark h i b).length = h.length := length_updateAt h i _

theorem objType_setMark (h : List Object) (i : Nat) (b : Bool) (j : Nat) :
    objType (setMark h i b) j = objType h j := by
  simp only [objType, setMark, getO_updateAt]
  by_cases hj : j = i
  · subst hj
    cases getO h j <;> simp
  · simp [hj]

theorem nextOf_setMark (h : List Object) (i : Nat) (b : Bool) (j : Nat) :
    nextOf (setMark h i b) j = nextOf h j := by
  simp only [nextOf, setMark, getO_updateAt]
  by_cases hj : j = i
  · subst hj
    cases getO h j <;> simp
  · simp [hj]

theorem isMarked_setMark_self {h : List Object} {i : Nat} {o : Object}
    (hg : getO h i = some o) (b : Bool) : isMarked (setMark h i b) i = b := by
  simp [isMarked, setMark, getO_updateAt, hg]

theorem isMarked_setMark_ne (h : List Object) (i : Nat) (b : Bool) {j : Nat}
    (hj : j ≠ i) : isMarked (setMark h i b) j = isMarked h j := by
  simp [isMarked, setMark, getO_updateAt, hj]

theorem isMarked_eq_false_of_le {h : List Object} {j : Nat}
    (hj : h.length ≤ j) : isMarked h j = false := by
  simp [isMarked, getO_none_iff h j |>.mpr hj]

/-! ### Structure preservation by `mark` -/

theorem mark_length (fuel : Nat) (h : List Object) (i : Nat) :
    (VM.mark fuel h i).length = h.length := by
  induction fuel generalizing h i with
  | zero => rfl
  | succ f ih =>
    simp only [VM.mark]
    cases hg : getO h i with
    | none => rfl
    | some o =>
      by_cases hm : o.marked
      · simp [hm]
      · cases ht : o.obj_type with
        | int v => simp [hm, ht, length_setMark]
        | pair hd tl => simp [hm, ht, ih, length_setMark]

theorem mark_objType (fuel : Nat) (h : List Object) (i j : Nat) :
    objType (VM.mark fuel h i) j = objType h j := by
  induction fuel generalizing h i with
  | zero => rfl
  | succ f ih =>
    simp only [VM.mark]
    cases hg : getO h i with
    | none => rfl
    | some o =>
      by_cases hm : o.marked
      · simp [hm]
      · cases ht : o.obj_type with
        | int v => simp [hm, ht, objType_setMark]
        | pair hd tl => simp [hm, ht, ih, objType_setMark]

theorem mark_nextOf (fuel : Nat) (h : List Object) (i j : Nat) :
    nextOf (VM.mark fuel h i) j = nextOf h j := by
  induction fuel generalizing h i with
  | zero => rfl
  | succ f ih =>
    simp only [VM.mark]
    cases hg : getO h i with
    | none => rfl
    | some o =>
      by_cases hm : o.marked
      · simp [hm]
      · cases ht : o.obj_type with
        | int v => simp [hm, ht, nextOf_setMark]
        | pair hd tl => simp [hm, ht, ih, nextOf_setMark]

theorem mark_mono (fuel : Nat) (h : List Object) (i : Nat) {j : Nat}
    (hj : isMarked h j = true) : isMarked (VM.mark fuel h i) j = true := by
  induction fuel generalizing h i with
  | zero => exact hj
  | succ f ih =>
    simp only [VM.mark]
    cases hg : getO h i with
    | none => exact hj
    | some o =>
      by_cases hm : o.marked
      · simp [hm, hj]
      · have hj1 : isMarked (setMark h i true) j = true := by
          by_cases hji : j = i
          · subst hji
            exact isMarked_setMark_self hg true
          · rw [isMarked_setMark_ne h i true hji]
            exact hj
        cases ht : o.obj_type with
        | int v => simp [hm, ht, hj1]
        | pair hd tl => simp [hm, ht, ih _ _ (ih _ _ hj1)]

/-! ### The unmarked-count measure -/

theorem unmarkedCount_le_length (h : List Object) : unmarkedCount h ≤ h.length := by
  induction h with
  | nil => exact Nat.le_refl 0
  | cons o t ih =>
    simp only [unmarkedCount, List.length_cons]
    by_cases hm : o.marked
    · simp [hm]; omega
    · simp [hm]; omega

theorem unmarkedCount_setMark_true_le (h : List Object) (i : Nat) :
    unmarkedCount (setMark h i true) ≤ unmarkedCount h := by
  induction h generalizing i with
  | nil => exact Nat.le_refl 0
  | cons o t ih =>
    cases i with
    | zero =>
      simp only [setMark, updateAt, unmarkedCount]
      by_cases hm : o.marked <;> simp [hm]
    | succ m =>
      simp only [setMark, updateAt, unmarkedCount] at *
      have := ih m
      omega

theorem unmarkedCount_setMark_true {h : List Object} {i : Nat} {o : Object}
    (hg : getO h i = some o) (hm : o.marked = false) :
    unmarkedCount h = unmarkedCount (setMark h i true) + 1 := by
  induction h generalizing i with
  | nil => exact absurd hg (by simp [getO])
  | cons a t ih =>
    cases i with
    | zero =>
      simp only [getO] at hg
      cases hg
      simp only [setMark, updateAt, unmarkedCount, hm]
      simp
      omega
    | succ m =>
      simp only [getO] at hg
      simp only [setMark, updateAt, unmarkedCount] at *
      have := ih hg
      omega

theorem unmarkedCount_mark_le (fuel : Nat) (h : List Object) (i : Nat) :
    unmarkedCount (VM.mark fuel h i) ≤ unmarkedCount h := by
  induction fuel generalizing h i with
  | zero => exact Nat.le_refl _
  | succ f ih =>
    simp only [VM.mark]
    cases hg : getO h i with
    | none => exact Nat.le_refl _
    | some o =>
      by_cases hm : o.marked
      · simp [hm]
      · cases ht : o.obj_type with
        | int v =>
          simp only [hm, ht]
          simpa using unmarkedCount_setMark_true_le h i
        | pair hd tl =>
          simp only [hm, ht]
          simp only [Bool.false_eq_true, if_false]
          calc unmarkedCount (VM.mark f (VM.mark f (setMark h i true) hd) tl)
              ≤ unmarkedCount (VM.mark f (setMark h i true) hd) := ih _ _
            _ ≤ unmarkedCount (setMark h i true) := ih _ _
            _ ≤ unmarkedCount h := unmarkedCount_setMark_true_le h i

/-- Fuel irrelevance for `mark`: any two fuels strictly larger than the
number of unmarked objects give the same result.  This is the termination
argument of the recursive `VM::mark`: each recursive call happens only
after a fresh object was marked, so the depth is bounded by the number of
unmarked (hence by the number of allocated) objects. -/
theorem mark_eq_of_fuel :
    ∀ n h, unmarkedCount h ≤ n → ∀ f1 f2 i, unmarkedCount h < f1 → unmarkedCount h < f2 →
      VM.mark f1 h i = VM.mark f2 h i := by
  intro n
  induction n with
  | zero =>
    intro h hn f1 f2 i h1 h2
    cases f1 with
    | zero => omega
    | succ g1 =>
      cases f2 with
      | zero => omega
      | succ g2 =>
        simp only [VM.mark]
        cases hg : getO h i with
        | none => rfl
        | some o =>
          by_cases hm : o.marked
          · simp [hm]
          · exfalso
            have := unmarkedCount_setMark_true hg (Bool.eq_false_iff.mpr hm)
            omega
  | succ n ih =>
    intro h hn f1 f2 i h1 h2
    cases f1 with
    | zero => omega
    | succ g1 =>
      cases f2 with
      | zero => omega
      | succ g2 =>
        simp only [VM.mark]
        cases hg : getO h i with
        | none => rfl
        | some o =>
          by_cases hm : o.marked
          · simp [hm]
          · cases ht : o.obj_type with
            | int v => simp [hm, ht]
            | pair hd tl =>
              simp only [hm, ht, Bool.false_eq_true, if_false]
              have hcount := unmarkedCount_setMark_true hg (Bool.eq_false_iff.mpr hm)
              have hle1 : unmarkedCount (setMark h i true) ≤ n := by omega
              have hg1 : unmarkedCount (setMark h i true) < g1 := by omega
              have hg2 : unmarkedCount (setMark h i true) < g2 := by omega
              have hhd : VM.mark g1 (setMark h i true) hd = VM.mark g2 (setMark h i true) hd :=
                ih _ hle1 g1 g2 hd hg1 hg2
              rw [hhd]
              have hle2 : unmarkedCount (VM.mark g2 (setMark h i true) hd) ≤ n :=
                Nat.le_trans (unmarkedCount_mark_le _ _ _) hle1
              have hg1b : unmarkedCount (VM.mark g2 (setMark h i true) hd) < g1 :=
                Nat.lt_of_le_of_lt (unmarkedCount_mark_le _ _ _) hg1
              have hg2b : unmarkedCount (VM.mark g2 (setMark h i true) hd) < g2 :=
                Nat.lt_of_le_of_lt (unmarkedCount_mark_le _ _ _) hg2
              exact ih _ hle2 g1 g2 tl hg1b hg2b

/-! ### Reachability along `head`/`tail` edges -/

theorem Reaches_congr {h h2 : List Object}
    (he : ∀ k, objType h2 k = objType h k) {i j : Nat}
    (hr : Reaches h2 i j) : Reaches h i j := by
  induction hr with
  | refl i => exact Reaches.refl i
  | head i hd tl j ht _ ih => exact Reaches.head i hd tl j (by rw [← he i, ht]) ih
  | tail i hd tl j ht _ ih => exact Reaches.tail i hd tl j (by rw [← he i, ht]) ih

/-- Soundness of the mark phase: any object marked by `mark` was either
already marked or is reachable from the argument reference. -/
theorem mark_sound (fuel : Nat) (h : List Object) (i : Nat) {j : Nat}
    (hj : isMarked (VM.mark fuel h i) j = true) :
    isMarked h j = true ∨ Reaches h i j := by
  induction fuel generalizing h i with
  | zero => exact Or.inl hj
  | succ f ih =>
    cases hg : getO h i with
    | none =>
      rw [show VM.mark (f + 1) h i = h by simp [VM.mark, hg]] at hj
      exact Or.inl hj
    | some o =>
      by_cases hm : o.marked
      · rw [show VM.mark (f + 1) h i = h by simp [VM.mark, hg, hm]] at hj
        exact Or.inl hj
      · have hsm : ∀ {k : Nat}, isMarked (setMark h i true) k = true →
            isMarked h k = true ∨ k = i := by
          intro k hk
          by_cases hki : k = i
          · exact Or.inr hki
          · rw [isMarked_setMark_ne h i true hki] at hk
            exact Or.inl hk
        cases ht : o.obj_type with
        | int v =>
          rw [show VM.mark (f + 1) h i = setMark h i true by
            simp [VM.mark, hg, hm, ht]] at hj
          rcases hsm hj with hold | rfl
          · exact Or.inl hold
          · exact Or.inr (Reaches.refl j)
        | pair hd tl =>
          rw [show VM.mark (f + 1) h i
              = VM.mark f (VM.mark f (setMark h i true) hd) tl by
            simp [VM.mark, hg, hm, ht]] at hj
          have hty : objType h i = some (ObjectType.pair hd tl) := by
            simp [objType, hg, ht]
          have he1 : ∀ k, objType (setMark h i true) k = objType h k :=
            fun k => objType_setMark h i true k
          have he2 : ∀ k, objType (VM.mark f (setMark h i true) hd) k = objType h k :=
            fun k => (mark_objType f _ hd k).trans (he1 k)
          rcases ih _ tl hj with h2 | hrtl
          · rcases ih _ hd h2 with h1 | hrhd
            · rcases hsm h1 with hold | rfl
              · exact Or.inl hold
              · exact Or.inr (Reaches.refl j)
            · exact Or.inr (Reaches.head i hd tl j hty (Reaches_congr he1 hrhd))
          · exact Or.inr (Reaches.tail i hd tl j hty (Reaches_congr he2 hrtl))

/-! ### Completeness of the mark phase -/

theorem HeapClosed_transfer {h h2 : List Object} (hlen : h2.length = h.length)
    (he : ∀ k, objType h2 k = objType h k) (hc : HeapClosed h) : HeapClosed h2 := by
  intro i a b ht
  rw [he i] at ht
  rw [hlen]
  exact hc i a b ht

theorem HeapClosed_setMark {h : List Object} (i : Nat) (b : Bool)
    (hc : HeapClosed h) : HeapClosed (setMark h i b) :=
  HeapClosed_transfer (length_setMark h i b) (objType_setMark h i b) hc

theorem HeapClosed_mark {h : List Object} (fuel : Nat) (i : Nat)
    (hc : HeapClosed h) : HeapClosed (VM.mark fuel h i) :=
  HeapClosed_transfer (mark_length fuel h i) (mark_objType fuel h i) hc

/-- Completeness core: with enough fuel, `mark` marks its argument, and
every newly marked pair has both of its successors marked in the result. -/
theorem mark_complete :
    ∀ n h, unmarkedCount h ≤ n → HeapClosed h → ∀ fuel i, unmarkedCount h < fuel →
      ((i < h.length → isMarked (VM.mark fuel h i) i = true)
      ∧ (∀ j a b, isMarked (VM.mark fuel h i) j = true → isMarked h j = false →
          objType h j = some (ObjectType.pair a b) →
          isMarked (VM.mark fuel h i) a = true ∧ isMarked (VM.mark fuel h i) b = true)) := by
  intro n
  induction n with
  | zero =>
    intro h hn hc fuel i hf
    cases fuel with
    | zero => omega
    | succ g =>
      simp only [VM.mark]
      cases hg : getO h i with
      | none =>
        refine ⟨fun hi => absurd hg ?_, fun j a b hj1 hj2 _ => absurd hj1 (by simp [hj2])⟩
        rcases getO_isSome_of_lt hi with ⟨o, ho⟩
        simp [ho]
      | some o =>
        by_cases hm : o.marked
        · simp only [hm, if_true]
          exact ⟨fun _ => by simp [isMarked, hg, hm],
            fun j a b hj1 hj2 _ => absurd hj1 (by simp [hj2])⟩
        · exfalso
          have := unmarkedCount_setMark_true hg (Bool.eq_false_iff.mpr hm)
          omega
  | succ n ih =>
    intro h hn hc fuel i hf
    cases fuel with
    | zero => omega
    | succ g =>
      simp only [VM.mark]
      cases hg : getO h i with
      | none =>
        refine ⟨fun hi => absurd hg ?_, fun j a b hj1 hj2 _ => absurd hj1 (by simp [hj2])⟩
        rcases getO_isSome_of_lt hi with ⟨o, ho⟩
        simp [ho]
      | some o =>
        by_cases hm : o.marked
        · simp only [hm, if_true]
          exact ⟨fun _ => by simp [isMarked, hg, hm],
            fun j a b hj1 hj2 _ => absurd hj1 (by simp [hj2])⟩
        · simp only [hm, Bool.false_eq_true, if_false]
          have hmf : o.marked = false := Bool.eq_false_iff.mpr hm
          have hcount := unmarkedCount_setMark_true hg hmf
          have hmi : isMarked h i = o.marked := by simp [isMarked, hg]
          cases ht : o.obj_type with
          | int v =>
            refine ⟨fun _ => isMarked_setMark_self hg true, fun j a b hj1 hj2 hty => ?_⟩
            exfalso
            by_cases hji : j = i
            · subst hji
              rw [show objType h j = some (ObjectType.int v) by simp [objType, hg, ht]] at hty
              exact Option.noConfusion hty (fun h2 => ObjectType.noConfusion h2)
            · rw [isMarked_setMark_ne h i true hji] at hj1
              rw [hj2] at hj1
              exact Bool.noConfusion hj1
          | pair hd tl =>
            have hty : objType h i = some (ObjectType.pair hd tl) := by
              simp [objType, hg, ht]
            have hlt := hc i hd tl hty
            have hc1 : HeapClosed (setMark h i true) := HeapClosed_setMark i true hc
            have hle1 : unmarkedCount (setMark h i true) ≤ n := by omega
            have hg1 : unmarkedCount (setMark h i true) < g := by omega
            have ih1 := ih (setMark h i true) hle1 hc1 g hd hg1
            have hc2 : HeapClosed (VM.mark g (setMark h i true) hd) :=
              HeapClosed_mark g hd hc1
            have hle2 : unmarkedCount (VM.mark g (setMark h i true) hd) ≤ n :=
              Nat.le_trans (unmarkedCount_mark_le _ _ _) hle1
            have hg2 : unmarkedCount (VM.mark g (setMark h i true) hd) < g :=
              Nat.lt_of_le_of_lt (unmarkedCount_mark_le _ _ _) hg1
            have ih2 := ih (VM.mark g (setMark h i true) hd) hle2 hc2 g tl hg2
            have hlen1 : (VM.mark g (setMark h i true) hd).length = h.length := by
              rw [mark_length, length_setMark]
            have hmarked_i : isMarked (VM.mark g (VM.mark g (setMark h i true) hd) tl) i = true :=
              mark_mono g _ tl (mark_mono g _ hd (isMarked_setMark_self hg true))
            have hmarked_hd : isMarked (VM.mark g (VM.mark g (setMark h i true) hd) tl) hd = true := by
              apply mark_mono g _ tl
              exact ih1.1 (by rw [length_setMark]; exact hlt.1)
            have hmarked_tl : isMarked (VM.mark g (VM.mark g (setMark h i true) hd) tl) tl = true :=
              ih2.1 (by rw [hlen1]; exact hlt.2)
            refine ⟨fun _ => hmarked_i, fun j a b hj1 hj2 htyj => ?_⟩
            by_cases hji : j = i
            · subst hji
              rw [hty] at htyj
              cases htyj
              exact ⟨hmarked_hd, hmarked_tl⟩
            · have hj2' : isMarked (setMark h i true) j = false := by
                rw [isMarked_setMark_ne h i true hji]
                exact hj2
              by_cases hj3 : isMarked (VM.mark g (setMark h i true) hd) j = true
              · have htyj1 : objType (setMark h i true) j = some (ObjectType.pair a b) := by
                  rw [objType_setMark]
                  exact htyj
                have := ih1.2 j a b hj3 hj2' htyj1
                exact ⟨mark_mono g _ tl this.1, mark_mono g _ tl this.2⟩
              · have htyj2 : objType (VM.mark g (setMark h i true) hd) j = some (ObjectType.pair a b) := by
                  rw [mark_objType, objType_setMark]
                  exact htyj
                exact ih2.2 j a b hj1 (Bool.eq_false_iff.mpr hj3) htyj2

/-! ### The mark phase over the whole root stack -/

theorem foldMark_length (h : List Object) (roots : List Nat) :
    (foldMark h roots).length = h.length := by
  induction roots generalizing h with
  | nil => rfl
  | cons r rs ih =>
    simp only [foldMark, List.foldl_cons] at *
    rw [ih, mark_length]

theorem foldMark_objType (h : List Object) (roots : List Nat) (j : Nat) :
    objType (foldMark h roots) j = objType h j := by
  induction roots generalizing h with
  | nil => rfl
  | cons r rs ih =>
    simp only [foldMark, List.foldl_cons] at *
    rw [ih, mark_objType]

theorem foldMark_nextOf (h : List Object) (roots : List Nat) (j : Nat) :
    nextOf (foldMark h roots) j = nextOf h j := by
  induction roots generalizing h with
  | nil => rfl
  | cons r rs ih =>
    simp only [foldMark, List.foldl_cons] at *
    rw [ih, mark_nextOf]

theorem foldMark_mono (h : List Object) (roots : List Nat) {j : Nat}
    (hj : isMarked h j = true) : isMarked (foldMark h roots) j = true := by
  induction roots generalizing h with
  | nil => exact hj
  | cons r rs ih =>
    simp only [foldMark, List.foldl_cons] at *
    exact ih _ (mark_mono _ _ _ hj)

theorem foldMark_sound (h : List Object) (roots : List Nat) {j : Nat}
    (hj : isMarked (foldMark h roots) j = true) :
    isMarked h j = true ∨ ∃ r ∈ roots, Reaches h r j := by
  induction roots generalizing h with
  | nil => exact Or.inl hj
  | cons r rs ih =>
    simp only [foldMark, List.foldl_cons] at hj
    rcases ih _ hj with h1 | ⟨r2, hr2, hrr⟩
    · rcases mark_sound _ _ _ h1 with h0 | hr
      · exact Or.inl h0
      · exact Or.inr ⟨r, List.mem_cons_self r rs, hr⟩
    · exact Or.inr ⟨r2, List.mem_cons_of_mem r hr2,
        Reaches_congr (fun k => mark_objType _ h r k) hrr⟩

theorem MarksClosed_mark {h : List Object} (fuel : Nat) (i : Nat)
    (hc : HeapClosed h) (hf : unmarkedCount h < fuel)
    (hm : MarksClosed h) : MarksClosed (VM.mark fuel h i) := by
  intro j a b hj hty
  rw [mark_objType] at hty
  by_cases hold : isMarked h j = true
  · have := hm j a b hold hty
    exact ⟨mark_mono fuel h i this.1, mark_mono fuel h i this.2⟩
  · exact (mark_complete (unmarkedCount h) h (Nat.le_refl _) hc fuel i hf).2
      j a b hj (Bool.eq_false_iff.mpr hold) hty

theorem MarksClosed_foldMark {h : List Object} (roots : List Nat)
    (hc : HeapClosed h) (hm : MarksClosed h) : MarksClosed (foldMark h roots) := by
  induction roots generalizing h with
  | nil => exact hm
  | cons r rs ih =>
    simp only [foldMark, List.foldl_cons] at *
    refine ih (HeapClosed_mark _ r hc) ?_
    exact MarksClosed_mark _ r hc
      (Nat.lt_succ_of_le (unmarkedCount_le_length h)) hm

theorem foldMark_roots_marked {h : List Object} (roots : List Nat)
    (hc : HeapClosed h) {r : Nat} (hr : r ∈ roots) (hlt : r < h.length) :
    isMarked (foldMark h roots) r = true := by
  induction roots generalizing h with
  | nil => exact absurd hr (List.not_mem_nil r)
  | cons r0 rs ih =>
    simp only [foldMark, List.foldl_cons] at *
    rcases List.mem_cons.mp hr with rfl | hmem
    · apply foldMark_mono
      exact (mark_complete (unmarkedCount h) h (Nat.le_refl _) hc _ r
        (Nat.lt_succ_of_le (unmarkedCount_le_length h))).1 hlt
    · exact ih (HeapClosed_mark _ r0 hc) hmem (by rwa [mark_length])

theorem reach_marked {H h : List Object} (hmc : MarksClosed H)
    (he : ∀ k, objType H k = objType h k) {r j : Nat}
    (hr : isMarked H r = true) (hreach : Reaches h r j) : isMarked H j = true := by
  induction hreach with
  | refl i => exact hr
  | head i hd tl j2 hty _ ih => exact ih (hmc i hd tl hr (by rw [he i]; exact hty)).1
  | tail i hd tl j2 hty _ ih => exact ih (hmc i hd tl hr (by rw [he i]; exact hty)).2

/-! ### Decidable well-formedness checks -/

theorem pairsBelow_spec (h : List Object) (n : Nat) :
    pairsBelow h n = true ↔
      ∀ i a b, objType h i = some (ObjectType.pair a b) → a < n ∧ b < n := by
  induction h with
  | nil =>
    simp only [pairsBelow, true_iff]
    intro i a b hty
    simp [objType, getO] at hty
  | cons o t ih =>
    simp only [pairsBelow, Bool.and_eq_true, ih]
    constructor
    · rintro ⟨h1, h2⟩ i a b hty
      cases i with
      | zero =>
        simp only [objType, getO, Option.map_some', Option.some_inj] at hty
        rw [hty] at h1
        simpa using h1
      | succ k => exact h2 k a b hty
    · intro hall
      constructor
      · cases hto : o.obj_type with
        | int v => rfl
        | pair a b =>
          have := hall 0 a b (by simp [objType, getO, hto])
          simpa using this
      · intro i a b hty
        exact hall (i + 1) a b hty

theorem heapClosed_spec {h : List Object} (hb : heapClosed h = true) : HeapClosed h :=
  fun i a b hty => (pairsBelow_spec h h.length).mp hb i a b hty

theorem idsBelow_spec (l : List Nat) (n : Nat) :
    idsBelow l n = true ↔ ∀ i ∈ l, i < n := by
  induction l with
  | nil => simp [idsBelow]
  | cons i t ih => simp [idsBelow, ih]

theorem allUnmarked_spec (h : List Object) :
    allUnmarked h = true ↔ ∀ j, isMarked h j = false := by
  induction h with
  | nil =>
    simp only [allUnmarked, true_iff]
    intro j
    simp [isMarked, getO]
  | cons o t ih =>
    simp only [allUnmarked, Bool.and_eq_true, ih]
    constructor
    · rintro ⟨h1, h2⟩ j
      cases j with
      | zero => simpa [isMarked, getO] using h1
      | succ k => exact h2 k
    · intro hall
      refine ⟨by simpa [isMarked, getO] using hall 0, fun k => hall (k + 1)⟩

/-! ### The sweep loop -/

theorem chainOKAux_spec (h : List Object) (k : Nat) :
    chainOKAux h k = true ↔
      ∀ p, p < h.length →
        nextOf h p = some (if k + p = 0 then none else some (k + p - 1)) := by
  induction h generalizing k with
  | nil => simp [chainOKAux]
  | cons o t ih =>
    simp only [chainOKAux, Bool.and_eq_true, beq_iff_eq, ih]
    constructor
    · rintro ⟨h1, h2⟩ p hp
      cases p with
      | zero =>
        simp only [nextOf, getO, Option.map_some', Nat.add_zero]
        rw [h1]
      | succ q =>
        have := h2 q (Nat.lt_of_succ_lt_succ hp)
        simp only [nextOf, getO] at *
        rw [this]
        have heq : k + 1 + q = k + (q + 1) := by omega
        rw [heq]
    · intro hall
      constructor
      · have := hall 0 (Nat.succ_pos _)
        simp only [nextOf, getO, Option.map_some', Nat.add_zero, Option.some_inj] at this
        rw [this]
      · intro p hp
        have := hall (p + 1) (Nat.succ_lt_succ hp)
        simp only [nextOf, getO] at *
        rw [this]
        have heq : k + (p + 1) = k + 1 + p := by omega
        rw [heq]

theorem chainOK_spec {h : List Object} (hb : chainOK h = true) : ChainOK h := by
  intro i hi
  have := (chainOKAux_spec h 0).mp hb i hi
  simpa using this

theorem ChainOK_transfer {h h2 : List Object} (hlen : h2.length = h.length)
    (he : ∀ k, nextOf h2 k = nextOf h k) (hc : ChainOK h) : ChainOK h2 := by
  intro i hi
  rw [he i]
  exact hc i (by omega)

theorem sweepLoop_length (fuel : Nat) (h : List Object) (cur : Option Nat) (n : Nat) :
    (sweepLoop fuel h cur n).1.length = h.length := by
  induction fuel generalizing h cur n with
  | zero => rfl
  | succ f ih =>
    cases cur with
    | none => rfl
    | some i =>
      simp only [sweepLoop]
      cases hg : getO h i with
      | none => rfl
      | some o =>
        by_cases hm : o.marked
        · simp only [hm, Bool.not_true, Bool.false_eq_true, if_false]
          rw [ih, length_setMark]
        · simp only [hm, Bool.not_false, if_true]
          rw [ih]

theorem sweepLoop_objType (fuel : Nat) (h : List Object) (cur : Option Nat) (n j : Nat) :
    objType (sweepLoop fuel h cur n).1 j = objType h j := by
  induction fuel generalizing h cur n with
  | zero => rfl
  | succ f ih =>
    cases cur with
    | none => rfl
    | some i =>
      simp only [sweepLoop]
      cases hg : getO h i with
      | none => rfl
      | some o =>
        by_cases hm : o.marked
        · simp only [hm, Bool.not_true, Bool.false_eq_true, if_false]
          rw [ih, objType_setMark]
        · simp only [hm, Bool.not_false, if_true]
          rw [ih]

theorem sweepLoop_nextOf (fuel : Nat) (h : List Object) (cur : Option Nat) (n j : Nat) :
    nextOf (sweepLoop fuel h cur n).1 j = nextOf h j := by
  induction fuel generalizing h cur n with
  | zero => rfl
  | succ f ih =>
    cases cur with
    | none => rfl
    | some i =>
      simp only [sweepLoop]
      cases hg : getO h i with
      | none => rfl
      | some o =>
        by_cases hm : o.marked
        · simp only [hm, Bool.not_true, Bool.false_eq_true, if_false]
          rw [ih, nextOf_setMark]
        · simp only [hm, Bool.not_false, if_true]
          rw [ih]

/-- When the registry chain has its invariant shape, the sweep walk
started at index `i` clears the marks of every cell up to `i` and leaves
higher cells untouched. -/
theorem sweepLoop_marks :
    ∀ i h fuel n, ChainOK h → i < h.length → i < fuel → ∀ j,
      isMarked (sweepLoop fuel h (some i) n).1 j
        = if j ≤ i then false else isMarked h j := by
  intro i
  induction i with
  | zero =>
    intro h fuel n hch hlen hfuel j
    cases fuel with
    | zero => omega
    | succ f =>
      rcases getO_isSome_of_lt hlen with ⟨o, hg⟩
      have hnext : o.next = none := by
        have := hch 0 hlen
        simp only [nextOf, hg, Option.map_some', Option.some_inj, if_pos rfl] at this
        exact this
      simp only [sweepLoop, hg]
      by_cases hm : o.marked
      · simp only [hm, Bool.not_true, Bool.false_eq_true, if_false, hnext]
        have hrest : ∀ g hh m, sweepLoop g hh (none : Option Nat) m = (hh, m) := by
          intro g hh m
          cases g <;> rfl
        rw [hrest]
        by_cases hj : j ≤ 0
        · have hj0 : j = 0 := Nat.le_zero.mp hj
          subst hj0
          simp [hj, isMarked_setMark_self hg]
        · have hjne : j ≠ 0 := by omega
          simp [hj, isMarked_setMark_ne h 0 false hjne]
      · simp only [hm, Bool.not_false, if_true, hnext]
        have hrest : ∀ g hh m, sweepLoop g hh (none : Option Nat) m = (hh, m) := by
          intro g hh m
          cases g <;> rfl
        rw [hrest]
        by_cases hj : j ≤ 0
        · have hj0 : j = 0 := Nat.le_zero.mp hj
          subst hj0
          simp only [if_pos hj]
          simp [isMarked, hg, hm]
        · simp [hj]
  | succ i ih =>
    intro h fuel n hch hlen hfuel j
    cases fuel with
    | zero => omega
    | succ f =>
      rcases getO_isSome_of_lt hlen with ⟨o, hg⟩
      have hnext : o.next = some i := by
        have := hch (i + 1) hlen
        simp only [nextOf, hg, Option.map_some', Option.some_inj] at this
        simpa using this
      simp only [sweepLoop, hg]
      by_cases hm : o.marked
      · simp only [hm, Bool.not_true, Bool.false_eq_true, if_false, hnext]
        have hch2 : ChainOK (setMark h (i + 1) false) :=
          ChainOK_transfer (length_setMark h (i + 1) false)
            (nextOf_setMark h (i + 1) false) hch
        have hlen2 : i < (setMark h (i + 1) false).length := by
          rw [length_setMark]; omega
        rw [ih _ f n hch2 hlen2 (by omega) j]
        by_cases hj : j ≤ i
        · simp [hj, Nat.le_succ_of_le hj]
        · by_cases hj2 : j = i + 1
          · subst hj2
            simp [isMarked_setMark_self hg]
          · have hj3 : ¬ j ≤ i + 1 := by omega
            simp [hj, hj3, isMarked_setMark_ne h (i + 1) false hj2]
      · simp only [hm, Bool.not_false, if_true, hnext]
        rw [ih _ f (n - 1) hch (by omega) (by omega) j]
        by_cases hj : j ≤ i
        · simp [hj, Nat.le_succ_of_le hj]
        · by_cases hj2 : j = i + 1
          · subst hj2
            simp only [Nat.le_refl, if_pos]
            simp [isMarked, hg, hm, hj]
          · have hj3 : ¬ j ≤ i + 1 := by omega
            simp [hj, hj3]

/-! ### Frame facts about a collection cycle -/

theorem gc_stack (vm : VM) : (VM.gc vm).stack = vm.stack := rfl

theorem gc_max_size (vm : VM) : (VM.gc vm).max_size = vm.max_size := rfl

theorem gc_first_object (vm : VM) : (VM.gc vm).first_object = vm.first_object := rfl

theorem gc_heap_eq (vm : VM) :
    (VM.gc vm).heap
      = (sweepLoop ((foldMark vm.heap vm.stack.reverse).length + 1)
          (foldMark vm.heap vm.stack.reverse) vm.first_object vm.num_objects).1 := rfl

theorem gc_heap_length (vm : VM) : (VM.gc vm).heap.length = vm.heap.length := by
  rw [gc_heap_eq, sweepLoop_length, foldMark_length]

theorem gc_objType (vm : VM) (j : Nat) :
    objType (VM.gc vm).heap j = objType vm.heap j := by
  rw [gc_heap_eq, sweepLoop_objType, foldMark_objType]

theorem gc_nextOf (vm : VM) (j : Nat) :
    nextOf (VM.gc vm).heap j = nextOf vm.heap j := by
  rw [gc_heap_eq, sweepLoop_nextOf, foldMark_nextOf]

/-- After a collection on a state whose registry has the invariant shape,
no mark bit is left set: the sweep walk visits every allocated cell
(because the chain enumerates all of them) and clears each mark. -/
theorem gc_allUnmarked (vm : VM) (hf : firstOK vm = true)
    (hch : chainOK vm.heap = true) : allUnmarked (VM.gc vm).heap = true := by
  have hlen1 : (foldMark vm.heap vm.stack.reverse).length = vm.heap.length :=
    foldMark_length vm.heap vm.stack.reverse
  rw [allUnmarked_spec]
  intro j
  cases hn : vm.heap.length with
  | zero =>
    have : (VM.gc vm).heap.length = 0 := by rw [gc_heap_length, hn]
    exact isMarked_eq_false_of_le (by omega)
  | succ m =>
    have hfirst : vm.first_object = some m := by
      simp only [firstOK, beq_iff_eq, hn] at hf
      simpa using hf
    have hch1 : ChainOK (foldMark vm.heap vm.stack.reverse) :=
      ChainOK_transfer hlen1 (foldMark_nextOf vm.heap vm.stack.reverse)
        (chainOK_spec hch)
    have hmlt : m < (foldMark vm.heap vm.stack.reverse).length := by omega
    have hfuel : m < (foldMark vm.heap vm.stack.reverse).length + 1 := by omega
    have := sweepLoop_marks m (foldMark vm.heap vm.stack.reverse)
      ((foldMark vm.heap vm.stack.reverse).length + 1) vm.num_objects
      hch1 hmlt hfuel j
    rw [gc_heap_eq, hfirst, this]
    by_cases hj : j ≤ m
    · simp [hj]
    · simp only [hj, if_false]
      exact isMarked_eq_false_of_le (by omega)

/-! ### Allocation -/

theorem allUnmarked_append (h : List Object) (o : Object) :
    allUnmarked (h ++ [o]) = (allUnmarked h && !o.marked) := by
  induction h with
  | nil => simp [allUnmarked]
  | cons a t ih => simp [allUnmarked, ih, Bool.and_assoc]

/-- Unfolded form of `VM.new_object`: the gate may collect, but the
allocation itself always appends the fresh cell at `vm.heap.length` and
pushes that reference (failing only on stack overflow). -/
theorem new_object_eq (vm : VM) (t : ObjectType) :
    VM.new_object vm t =
      (if vm.max_size ≤ vm.stack.length then Except.error VMErr.stackOverflow
       else Except.ok
        ({ stack := vm.heap.length :: vm.stack, max_size := vm.max_size,
           first_object := some vm.heap.length,
           max_objects := (if needsGC vm then VM.gc vm else vm).max_objects,
           num_objects := (if needsGC vm then VM.gc vm else vm).num_objects + 1,
           heap := (if needsGC vm then VM.gc vm else vm).heap
             ++ [{ obj_type := t, marked := false, next := vm.first_object }] },
         vm.heap.length)) := by
  by_cases hgc : needsGC vm <;> by_cases hcap : vm.max_size ≤ vm.stack.length <;>
    simp [VM.new_object, VM.push, hgc, hcap, gc_stack, gc_max_size,
      gc_first_object, gc_heap_length]

/-- Successful allocation, in full: the new object is appended at index
`vm.heap.length`, carries the requested payload, starts unmarked, links to
the old `first_object`, and its reference is pushed on the stack and
installed as the new `first_object`. -/
theorem new_object_ok (vm : VM) (t : ObjectType)
    (hcap : vm.stack.length < vm.max_size) :
    ∃ v, VM.new_object vm t = Except.ok (v, vm.heap.length)
      ∧ v.stack = vm.heap.length :: vm.stack
      ∧ v.max_size = vm.max_size
      ∧ v.first_object = some vm.heap.length
      ∧ v.heap = (if needsGC vm then VM.gc vm else vm).heap
          ++ [{ obj_type := t, marked := false, next := vm.first_object }]
      ∧ v.num_objects = (if needsGC vm then VM.gc vm else vm).num_objects + 1 := by
  have hv := new_object_eq vm t
  rw [if_neg (Nat.not_le.mpr hcap)] at hv
  exact ⟨_, hv, rfl, rfl, rfl, rfl, rfl⟩

/-- Any successful allocation has the shape of `new_object_ok`. -/
theorem new_object_shape (vm : VM) (t : ObjectType) {v : VM} {id : Nat}
    (hok : VM.new_object vm t = Except.ok (v, id)) :
    id = vm.heap.length
    ∧ v.heap = (if needsGC vm then VM.gc vm else vm).heap
        ++ [{ obj_type := t, marked := false, next := vm.first_object }] := by
  rw [new_object_eq] at hok
  by_cases hcap : vm.max_size ≤ vm.stack.length
  · rw [if_pos hcap] at hok
    exact absurd hok (by simp)
  · rw [if_neg hcap] at hok
    simp only [Except.ok.injEq, Prod.mk.injEq] at hok
    exact ⟨hok.2.symm, by rw [← hok.1]⟩

/-- A successful allocation on a well-formed all-unmarked state yields an
all-unmarked heap, and the fresh object in particular is unmarked. -/
theorem new_object_unmarked (vm : VM) (t : ObjectType)
    (hw : regWF vm = true) (hu : allUnmarked vm.heap = true)
    {v : VM} {id : Nat} (hok : VM.new_object vm t = Except.ok (v, id)) :
    allUnmarked v.heap = true ∧ isMarked v.heap id = false := by
  rcases new_object_shape vm t hok with ⟨hid, hheap⟩
  have hw2 : firstOK vm = true ∧ chainOK vm.heap = true := by
    simpa [regWF] using hw
  rcases hw2 with ⟨hf, hch⟩
  have hu1 : allUnmarked (if needsGC vm then VM.gc vm else vm).heap = true := by
    by_cases hgc : needsGC vm
    · rw [if_pos hgc]
      exact gc_allUnmarked vm hf hch
    · rw [if_neg hgc]
      exact hu
  have hall : allUnmarked v.heap = true := by
    rw [hheap, allUnmarked_append, hu1]
    rfl
  exact ⟨hall, (allUnmarked_spec v.heap).mp hall id⟩

/-! ### The claims -/

/-- Claim C1 (code bug): the spec says the sweep phase unlinks every
unmarked object from the `first_object` registry list and releases it, so
that the registry afterwards holds exactly the previously root-reachable
set.  The code's sweep never rewrites `first_object` or any `next` link —
it only decrements the counter and drops an `Rc` clone — so after
`new(10); push_int(1); pop(); gc()` the root set is empty (nothing was
reachable), the live count is 0, and yet the registry still enumerates
object 0, whose storage (payload `Int 1`) is still present. -/
theorem c1_sweep_keeps_registry :
    step1.toOption.map
        (fun v => (registryIds v, v.stack, v.num_objects, objType v.heap 0))
      = some ([0], [], 0, some (ObjectType.int 1)) := by
  decide

/-- Claim C2 (code bug): the live count after a collection should equal
the number of root-reachable objects before it.  After
`new(10); push_int(1); push_int(2); pop(); gc()` the state has root set
`[0]` (object 0 is an `Int 1` held by a root, so at least one object is
reachable) and `num_objects = 1`, but because the dead object 1 was never
unlinked, a further collection decrements the count for it again and
reports 0 live objects. -/
theorem c2_second_cycle_count_wrong :
    step23.toOption.map
        (fun v => (v.stack, objType v.heap 0, v.num_objects, (VM.gc v).num_objects))
      = some ([0], some (ObjectType.int 1), 1, 0) := by
  decide

/-- Claim C3 (code bug): a second collection with the root set unchanged
should leave the live count unchanged.  Starting from the state after
`new(10); push_int(1); push_int(2); pop(); gc()` (count 1, root set `[0]`),
running `gc()` again keeps the root set `[0]` but drops the count from 1
to 0, because the dead object 1 is still on the registry chain and is
counted out a second time. -/
theorem c3_second_collection_changes_count :
    step23.toOption.map
        (fun v => (v.stack, (VM.gc v).stack, v.num_objects, (VM.gc v).num_objects))
      = some ([0], [0], 1, 0) := by
  decide

/-- Claim C4: in a well-formed state (pair edges and roots address
allocated cells) with all mark bits clear, after `mark_all` an object is
marked exactly when it is reachable from some root-stack entry along
`head`/`tail` edges — any path, including through cycles. -/
theorem c4_marked_iff_reachable (vm : VM) (j : Nat)
    (hc : heapClosed vm.heap = true)
    (hs : idsBelow vm.stack vm.heap.length = true)
    (hu : allUnmarked vm.heap = true) :
    isMarked (VM.mark_all vm).heap j = true ↔ ∃ r ∈ vm.stack, Reaches vm.heap r j := by
  have hma : (VM.mark_all vm).heap = foldMark vm.heap vm.stack.reverse := rfl
  have hcP : HeapClosed vm.heap := heapClosed_spec hc
  rw [hma]
  constructor
  · intro hmk
    rcases foldMark_sound vm.heap vm.stack.reverse hmk with h1 | ⟨r, hr, hre⟩
    · rw [(allUnmarked_spec vm.heap).mp hu j] at h1
      exact Bool.noConfusion h1
    · exact ⟨r, List.mem_reverse.mp hr, hre⟩
  · rintro ⟨r, hr, hre⟩
    have hmc0 : MarksClosed vm.heap := by
      intro j2 a b hj2 _
      rw [(allUnmarked_spec vm.heap).mp hu j2] at hj2
      exact Bool.noConfusion hj2
    exact reach_marked (MarksClosed_foldMark vm.stack.reverse hcP hmc0)
      (foldMark_objType vm.heap vm.stack.reverse)
      (foldMark_roots_marked vm.stack.reverse hcP (List.mem_reverse.mpr hr)
        ((idsBelow_spec vm.stack vm.heap.length).mp hs r hr))
      hre

/-- Witness for C4 on the concrete cyclic state `vmA` (object 1 is a pair
whose tail is itself): instantiating the theorem at reference 0. -/
theorem c4_marked_iff_reachable_inst :
    isMarked (VM.mark_all vmA).heap 0 = true ↔ ∃ r ∈ vmA.stack, Reaches vmA.heap r 0 :=
  c4_marked_iff_reachable vmA 0 (by decide) (by decide) (by decide)

/-- Claim C5: marking an already-marked object returns immediately with
no effect, and thanks to that memoisation the recursive `mark` needs no
more recursion than the number of allocated objects on any graph, cyclic
ones included: all fuels beyond the heap size compute the same result. -/
theorem c5_mark_no_op_and_terminates (h : List Object) (i f1 f2 : Nat)
    (hf1 : h.length < f1) (hf2 : h.length < f2) :
    (∀ fuel o, getO h i = some o → o.marked = true → VM.mark (fuel + 1) h i = h)
    ∧ VM.mark f1 h i = VM.mark f2 h i := by
  constructor
  · intro fuel o hg hm
    simp [VM.mark, hg, hm]
  · exact mark_eq_of_fuel (unmarkedCount h) h (Nat.le_refl _) f1 f2 i
      (Nat.lt_of_le_of_lt (unmarkedCount_le_length h) hf1)
      (Nat.lt_of_le_of_lt (unmarkedCount_le_length h) hf2)

/-- Witness for C5 on the cyclic heap of `vmA` with object 0 marked. -/
theorem c5_mark_no_op_and_terminates_inst :
    (∀ fuel o, getO (setMark vmA.heap 0 true) 0 = some o → o.marked = true →
      VM.mark (fuel + 1) (setMark vmA.heap 0 true) 0 = setMark vmA.heap 0 true)
    ∧ VM.mark 4 (setMark vmA.heap 0 true) 0 = VM.mark 5 (setMark vmA.heap 0 true) 0 :=
  c5_mark_no_op_and_terminates (setMark vmA.heap 0 true) 0 4 5 (by decide) (by decide)

/-- Claim C6: a collection resets the threshold to twice the
post-collection live count N; a state with that threshold triggers the
collection gate exactly when one more allocation would push the count past
2N; and immediately after a collection with N > 0 the gate is not
triggered, so a back-to-back collection cannot occur. -/
theorem c6_threshold_doubling (vm : VM) :
    (VM.gc vm).max_objects = (VM.gc vm).num_objects * 2
    ∧ (∀ w : VM, w.max_objects = (VM.gc vm).num_objects * 2 →
        (needsGC w = true ↔ (VM.gc vm).num_objects * 2 < w.num_objects + 1))
    ∧ (0 < (VM.gc vm).num_objects → needsGC (VM.gc vm) = false) := by
  refine ⟨rfl, ?_, ?_⟩
  · intro w hw
    rw [needsGC, hw]
    simp only [decide_eq_true_eq]
    omega
  · intro hpos
    have hmax : (VM.gc vm).max_objects = (VM.gc vm).num_objects * 2 := rfl
    rw [needsGC, hmax]
    simp only [decide_eq_false_iff_not]
    omega

/-- Witness for C6 on `vmA` (two objects survive its collection). -/
theorem c6_threshold_doubling_inst :
    (VM.gc vmA).max_objects = (VM.gc vmA).num_objects * 2
    ∧ needsGC (VM.gc vmA) = false :=
  ⟨(c6_threshold_doubling vmA).1, (c6_threshold_doubling vmA).2.2 (by decide)⟩

/-- Claim C7: with at least two references on the stack (top `t`, below it
`hd`) and the stack within capacity, `push_pair` pops both, allocates a
pair whose head is the deeper reference `hd` and whose tail is the most
recent reference `t`, pushes only the new pair's reference, and returns
it; the two popped references are not re-pushed. -/
theorem c7_push_pair_spec (vm : VM) (t hd : Nat) (rest : List Nat)
    (hs : vm.stack = t :: hd :: rest) (hlen : vm.stack.length ≤ vm.max_size) :
    ∃ v, VM.push_pair vm = Except.ok (v, vm.heap.length)
      ∧ objType v.heap vm.heap.length = some (ObjectType.pair hd t)
      ∧ v.stack = vm.heap.length :: rest
      ∧ v.heap.length = vm.heap.length + 1 := by
  have hcap : rest.length < vm.max_size := by
    rw [hs] at hlen
    simp only [List.length_cons] at hlen
    omega
  rcases new_object_ok { vm with stack := rest } (ObjectType.pair hd t) hcap
    with ⟨v, hok, hstack, hms, hfo, hheap, hnum⟩
  have hitelen :
      (if needsGC { vm with stack := rest } then VM.gc { vm with stack := rest }
       else { vm with stack := rest }).heap.length = vm.heap.length := by
    by_cases hgc : needsGC { vm with stack := rest }
    · rw [if_pos hgc, gc_heap_length]
    · rw [if_neg hgc]
  refine ⟨v, ?_, ?_, hstack, ?_⟩
  · simp only [VM.push_pair, VM.pop, hs]
    exact hok
  · rw [hheap]
    have : objType ((if needsGC { vm with stack := rest } then VM.gc { vm with stack := rest }
        else { vm with stack := rest }).heap
          ++ [{ obj_type := ObjectType.pair hd t, marked := false, next := vm.first_object }])
        ((if needsGC { vm with stack := rest } then VM.gc { vm with stack := rest }
          else { vm with stack := rest }).heap.length)
        = some (ObjectType.pair hd t) := by
      rw [objType, getO_append_length]
      rfl
    rwa [hitelen] at this
  · rw [hheap, List.length_append, hitelen]
    rfl

/-- Witness for C7 on `vmC` (stack `[1, 0]` at capacity 2). -/
theorem c7_push_pair_spec_inst :
    ∃ v, VM.push_pair vmC = Except.ok (v, vmC.heap.length)
      ∧ objType v.heap vmC.heap.length = some (ObjectType.pair 0 1)
      ∧ v.stack = vmC.heap.length :: []
      ∧ v.heap.length = vmC.heap.length + 1 :=
  c7_push_pair_spec vmC 1 0 [] rfl (by decide)

/-- Claim C8: `set_pair_tail` fails with `TypeMismatch` exactly when the
object is not a Pair; on a Pair it replaces only the tail edge, leaving
every mark bit, every registry link, every other payload, the stack and
all counters untouched. -/
theorem c8_set_pair_tail_spec (vm : VM) (i nt : Nat) :
    (isPairAt vm.heap i = false →
      VM.set_pair_tail vm i nt = Except.error VMErr.typeMismatch)
    ∧ (∀ hd tl, objType vm.heap i = some (ObjectType.pair hd tl) →
        ∃ v, VM.set_pair_tail vm i nt = Except.ok v
          ∧ objType v.heap i = some (ObjectType.pair hd nt)
          ∧ (∀ j, j ≠ i → objType v.heap j = objType vm.heap j)
          ∧ (∀ j, isMarked v.heap j = isMarked vm.heap j)
          ∧ (∀ j, nextOf v.heap j = nextOf vm.heap j)
          ∧ v.heap.length = vm.heap.length
          ∧ v.stack = vm.stack ∧ v.first_object = vm.first_object
          ∧ v.num_objects = vm.num_objects ∧ v.max_objects = vm.max_objects
          ∧ v.max_size = vm.max_size) := by
  constructor
  · intro hnp
    cases hg : getO vm.heap i with
    | none => simp [VM.set_pair_tail, hg]
    | some o =>
      cases hto : o.obj_type with
      | int v => simp [VM.set_pair_tail, hg, hto]
      | pair a b =>
        exfalso
        rw [show isPairAt vm.heap i = true by simp [isPairAt, objType, hg, hto]] at hnp
        exact Bool.noConfusion hnp
  · intro hd tl hty
    cases hg : getO vm.heap i with
    | none => rw [objType, hg] at hty; exact Option.noConfusion hty
    | some o =>
      rw [objType, hg, Option.map_some', Option.some_inj] at hty
      refine ⟨{ vm with
          heap := updateAt vm.heap i
            (fun o2 => { o2 with obj_type := ObjectType.pair hd nt }) },
        by simp [VM.set_pair_tail, hg, hty], ?_, ?_, ?_, ?_,
        length_updateAt vm.heap i _, rfl, rfl, rfl, rfl, rfl⟩
      · simp [objType, getO_updateAt, hg]
      · intro j hj
        simp [objType, getO_updateAt, hj]
      · intro j
        by_cases hj : j = i
        · subst hj
          simp [isMarked, getO_updateAt, hg]
        · simp [isMarked, getO_updateAt, hj]
      · intro j
        by_cases hj : j = i
        · subst hj
          simp [nextOf, getO_updateAt, hg]
        · simp [nextOf, getO_updateAt, hj]

/-- Witness for C8 on `vmD` (object 0 is the pair `(1, 1)`; its tail is
redirected to object 0 itself). -/
theorem c8_set_pair_tail_spec_inst :
    ∃ v, VM.set_pair_tail vmD 0 0 = Except.ok v
      ∧ objType v.heap 0 = some (ObjectType.pair 1 0)
      ∧ (∀ j, j ≠ 0 → objType v.heap j = objType vmD.heap j)
      ∧ (∀ j, isMarked v.heap j = isMarked vmD.heap j)
      ∧ (∀ j, nextOf v.heap j = nextOf vmD.heap j)
      ∧ v.heap.length = vmD.heap.length
      ∧ v.stack = vmD.stack ∧ v.first_object = vmD.first_object
      ∧ v.num_objects = vmD.num_objects ∧ v.max_objects = vmD.max_objects
      ∧ v.max_size = vmD.max_size :=
  (c8_set_pair_tail_spec vmD 0 0).2 1 1 rfl

/-- Claim C9: outside a collection every object is unmarked, and every
public operation preserves this: `new` starts with no objects, a
collection clears every mark it set (the sweep walk covers the whole
registry chain), successful `push_int`/`push_pair` allocate their fresh
object unmarked and keep the rest unmarked, and `set_pair_tail` never
touches a mark bit. -/
theorem c9_marks_clear_invariant (vm : VM) (n x i nt : Nat)
    (hw : regWF vm = true) (hu : allUnmarked vm.heap = true) :
    allUnmarked (VM.new n).heap = true
    ∧ allUnmarked (VM.gc vm).heap = true
    ∧ (∀ v id, VM.push_int vm x = Except.ok (v, id) →
        allUnmarked v.heap = true ∧ isMarked v.heap id = false)
    ∧ (∀ v id, VM.push_pair vm = Except.ok (v, id) →
        allUnmarked v.heap = true ∧ isMarked v.heap id = false)
    ∧ (∀ v, VM.set_pair_tail vm i nt = Except.ok v → allUnmarked v.heap = true) := by
  have hw2 : firstOK vm = true ∧ chainOK vm.heap = true := by
    simpa [regWF] using hw
  refine ⟨rfl, gc_allUnmarked vm hw2.1 hw2.2, ?_, ?_, ?_⟩
  · intro v id hok
    exact new_object_unmarked vm (ObjectType.int x) hw hu hok
  · intro v id hok
    cases hs : vm.stack with
    | nil =>
      simp only [VM.push_pair, VM.pop, hs] at hok
      exact absurd hok (by simp)
    | cons t rest =>
      cases rest with
      | nil =>
        simp only [VM.push_pair, VM.pop, hs] at hok
        exact absurd hok (by simp)
      | cons hd rest2 =>
        simp only [VM.push_pair, VM.pop, hs] at hok
        exact new_object_unmarked { vm with stack := rest2 }
          (ObjectType.pair hd t) hw hu hok
  · intro v hok
    cases hg : getO vm.heap i with
    | none =>
      simp only [VM.set_pair_tail, hg] at hok
      exact absurd hok (by simp)
    | some o =>
      cases hto : o.obj_type with
      | int w =>
        simp only [VM.set_pair_tail, hg, hto] at hok
        exact absurd hok (by simp)
      | pair a b =>
        simp only [VM.set_pair_tail, hg, hto, Except.ok.injEq] at hok
        rw [allUnmarked_spec]
        intro j
        rw [← hok]
        by_cases hj : j = i
        · subst hj
          simp only [isMarked, getO_updateAt, if_pos rfl, hg, Option.map_some']
          have := (allUnmarked_spec vm.heap).mp hu j
          simp only [isMarked, hg, Option.map_some', Option.getD_some] at this
          exact this
        · simp only [isMarked, getO_updateAt, hj, if_false]
          exact (allUnmarked_spec vm.heap).mp hu j

/-- Witness for C9 at the concrete well-formed state `vmA`. -/
theorem c9_marks_clear_invariant_inst :
    allUnmarked (VM.gc vmA).heap = true :=
  (c9_marks_clear_invariant vmA 4 9 1 0 (by decide) (by decide)).2.1

/-- Claim C10: a collection cycle leaves the root stack untouched (same
references, same order), keeps `max_size`, keeps `first_object`, keeps the
arena size, and changes no object's payload (`Int` value, pair `head` and
`tail`) and no registry link — only mark bits, the live count and the
threshold are written. -/
theorem c10_gc_frame (vm : VM) :
    (VM.gc vm).stack = vm.stack
    ∧ (VM.gc vm).max_size = vm.max_size
    ∧ (VM.gc vm).first_object = vm.first_object
    ∧ (VM.gc vm).heap.length = vm.heap.length
    ∧ (∀ j, objType (VM.gc vm).heap j = objType vm.heap j)
    ∧ (∀ j, nextOf (VM.gc vm).heap j = nextOf vm.heap j) :=
  ⟨gc_stack vm, gc_max_size vm, gc_first_object vm, gc_heap_length vm,
    gc_objType vm, gc_nextOf vm⟩
